import Mathlib

/-!
Verification of the PDF Comparator worker (src/main.py) against its
natural-language specification.

The development shallowly embeds the `Worker` class of src/main.py:

* Lines and text are embedded as `List Char` (`Str`), so that the
  prefix tests (`startswith`) of the formatting loop and Python string
  concatenation become ordinary list operations.
* The two external PDF libraries (pdfminer's `extract_text` and
  PyPDF2's `PdfReader`) are opaque collaborators; a `PdfFile` records,
  for a given path, the outcome of the primary whole-document strategy
  and the outcome of the fallback page-by-page strategy (the reader may
  raise, and each page's `extract_text()` call may raise or return an
  optional string, `none` standing for Python's `None`).
* The mutable `_is_running` flag is read ("polled") at the checkpoints
  of the code.  The flag is cleared at most once and never reset, so a
  whole execution's view of it is a monotone boolean sequence, encoded
  by `cancelAt : Option Nat`: poll number `k` reads `true` iff
  `cancelAt` is `none` or `k < cancelAt`.
* Qt signal emissions become `Event`s; a run produces an ordered log of
  `Item`s (events interleaved with flag polls), from which the emitted
  notification sequence is recovered.
* The diff algorithm invoked at src/main.py:48-49 is Python's
  `difflib.Differ`, an external library whose code is not part of this
  repository; it is modelled from the spec (§4.2) as a line-level
  LCS-based differ, see `diffEntries` below.
-/

/-- Python strings are embedded as lists of characters. -/
abbrev Str := List Char

/-- Kind of one diff entry, as in the spec's data model (§3): the
`difflib` tags `'  '`, `'+ '`, `'- '`, `'? '`. -/
inductive DiffKind : Type where
  | unchanged : DiffKind
  | added : DiffKind
  | removed : DiffKind
  | intralineHint : DiffKind
deriving DecidableEq

/-- One classified unit of diff output: a kind together with the
payload line of text. -/
structure DiffEntry : Type where
  kind : DiffKind
  payload : Str
deriving DecidableEq

/-- The two-character tag `difflib` prepends to a payload line. -/
def tagOf : DiffKind → Str
  | DiffKind.unchanged => [' ', ' ']
  | DiffKind.added => ['+', ' ']
  | DiffKind.removed => ['-', ' ']
  | DiffKind.intralineHint => ['?', ' ']

/-- A diff entry as the string `difflib.Differ.compare` yields it:
tag followed by the payload line. -/
def renderEntry (en : DiffEntry) : Str := tagOf en.kind ++ en.payload

/-- Length of a longest common subsequence of two line sequences
(classic dynamic-programming recursion). -/
def lcsLen : List Str → List Str → Nat
  | [], _ => 0
  | _ :: _, [] => 0
  | x :: xs, y :: ys =>
    if x = y then lcsLen xs ys + 1
    else max (lcsLen xs (y :: ys)) (lcsLen (x :: xs) ys)

/-- Hint oracle: for a removed line aligned with an added line in a
replace region, the payloads of the optional `'? '` marker lines that
are emitted after the removed line and after the added line. -/
abbrev HintOracle := Str → Str → List Str × List Str

/-- Modelled from the spec: the DiffEngine (§4.2) of the source is
Python's `difflib.Differ`, an external library whose code is not in
this repository.  Per the spec it is "a line-level
longest-common-subsequence-based alignment" that emits, interleaved in
input order, lines only in `a` as Removed, lines only in `b` as Added,
common lines as Unchanged, and — when a removed line is aligned with
an added line in a replace region — optional IntralineHint entries.
The recursion follows the LCS dynamic program; when deleting first or
inserting first are equally good and pairing the two heads is also
LCS-optimal, the two heads form a replace pair and the (optional,
oracle-supplied) intraline hints are emitted with it. -/
def diffEntries (H : HintOracle) : List Str → List Str → List DiffEntry
  | [], ys => ys.map (fun y => DiffEntry.mk DiffKind.added y)
  | x :: xs, [] => DiffEntry.mk DiffKind.removed x :: diffEntries H xs []
  | x :: xs, y :: ys =>
    if x = y then
      DiffEntry.mk DiffKind.unchanged x :: diffEntries H xs ys
    else if lcsLen (x :: xs) ys < lcsLen xs (y :: ys) then
      DiffEntry.mk DiffKind.removed x :: diffEntries H xs (y :: ys)
    else if lcsLen xs (y :: ys) < lcsLen (x :: xs) ys then
      DiffEntry.mk DiffKind.added y :: diffEntries H (x :: xs) ys
    else if lcsLen xs ys = lcsLen xs (y :: ys) then
      DiffEntry.mk DiffKind.removed x ::
        ((H x y).1.map (fun h => DiffEntry.mk DiffKind.intralineHint h) ++
          (DiffEntry.mk DiffKind.added y ::
            ((H x y).2.map (fun h => DiffEntry.mk DiffKind.intralineHint h) ++
              diffEntries H xs ys)))
    else
      DiffEntry.mk DiffKind.removed x :: diffEntries H xs (y :: ys)

/-- The call `differ.compare(lines1, lines2)` at src/main.py:48-49:
the list of tagged diff lines the worker iterates over. -/
def differCompare (H : HintOracle) (a b : List Str) : List Str :=
  (diffEntries H a b).map renderEntry

theorem lcsLen_symm (a b : List Str) : lcsLen a b = lcsLen b a := by
  induction a, b using lcsLen.induct with
  | case1 b => cases b <;> simp [lcsLen]
  | case2 x xs => simp [lcsLen]
  | case3 y xs ys ih => simp [lcsLen, ih]
  | case4 x xs y ys h ih1 ih2 =>
    have h2 : ¬ y = x := fun e => h e.symm
    simp [lcsLen, h, h2, ih1, ih2, Nat.max_comm]

def keepsA (en : DiffEntry) : Bool :=
  match en.kind with
  | DiffKind.unchanged => true
  | DiffKind.removed => true
  | _ => false

def keepsB (en : DiffEntry) : Bool :=
  match en.kind with
  | DiffKind.unchanged => true
  | DiffKind.added => true
  | _ => false

theorem filter_map_mk_nil (k : DiffKind) (p : DiffEntry → Bool)
    (hp : ∀ s, p (DiffEntry.mk k s) = false) (hs : List Str) :
    (hs.map (fun h => DiffEntry.mk k h)).filter p = [] := by
  induction hs with
  | nil => rfl
  | cons h t ih => simp [List.filter_cons, hp, ih]

theorem diff_restore_a (H : HintOracle) (a b : List Str) :
    ((diffEntries H a b).filter keepsA).map DiffEntry.payload = a := by
  induction a, b using diffEntries.induct H with
  | case1 ys =>
    simp [diffEntries, filter_map_mk_nil DiffKind.added keepsA (fun _ => rfl)]
  | case2 x xs ih => simp [diffEntries, List.filter_cons, keepsA, ih]
  | case3 y xs ys ih => simp [diffEntries, List.filter_cons, keepsA, ih]
  | case4 x xs y ys h1 h2 ih =>
    simp [diffEntries, h1, h2, List.filter_cons, keepsA, ih]
  | case5 x xs y ys h1 h2 h3 ih =>
    simp [diffEntries, h1, h2, h3, List.filter_cons, keepsA, ih]
  | case6 x xs y ys h1 h2 h3 h4 ih =>
    simp [diffEntries, h1, h2, h3, h4, List.filter_cons, List.filter_append, keepsA,
      filter_map_mk_nil DiffKind.intralineHint keepsA (fun _ => rfl), ih]
  | case7 x xs y ys h1 h2 h3 h4 ih =>
    simp [diffEntries, h1, h2, h3, h4, List.filter_cons, keepsA, ih]


/-- Number of diff entries of a given kind. -/
def kcount (k : DiffKind) : List DiffEntry → Nat
  | [] => 0
  | en :: rest => (if en.kind = k then 1 else 0) + kcount k rest

theorem kcount_append (k : DiffKind) (l1 l2 : List DiffEntry) :
    kcount k (l1 ++ l2) = kcount k l1 + kcount k l2 := by
  induction l1 with
  | nil => simp [kcount]
  | cons en t ih => simp [kcount, ih] ; omega

theorem kcount_map_mk (k k2 : DiffKind) (h : k2 ≠ k) (hs : List Str) :
    kcount k (hs.map (fun s => DiffEntry.mk k2 s)) = 0 := by
  induction hs with
  | nil => rfl
  | cons s t ih => simp [kcount, h, ih]

theorem kcount_map_mk_same (k : DiffKind) (hs : List Str) :
    kcount k (hs.map (fun s => DiffEntry.mk k s)) = hs.length := by
  induction hs with
  | nil => rfl
  | cons s t ih => simp [kcount, ih] ; omega

theorem lcsLen_nil_right (a : List Str) : lcsLen a [] = 0 := by
  cases a <;> simp [lcsLen]

theorem unchanged_count_eq_lcs (H : HintOracle) (a b : List Str) :
    kcount DiffKind.unchanged (diffEntries H a b) = lcsLen a b := by
  induction a, b using diffEntries.induct H with
  | case1 ys =>
    cases ys with
    | nil => simp [diffEntries, lcsLen, kcount]
    | cons y t =>
      simp [diffEntries, lcsLen, kcount,
        kcount_map_mk DiffKind.unchanged DiffKind.added (by decide)]
  | case2 x xs ih => simp [diffEntries, kcount, lcsLen_nil_right, ih]
  | case3 y xs ys ih => simp [diffEntries, lcsLen, kcount, ih] ; omega
  | case4 x xs y ys h1 h2 ih =>
    simp [diffEntries, lcsLen, h1, h2, kcount, ih, Nat.max_eq_left (Nat.le_of_lt h2)]
  | case5 x xs y ys h1 h2 h3 ih =>
    simp [diffEntries, lcsLen, h1, h2, h3, kcount, ih, Nat.max_eq_right (Nat.le_of_lt h3)]
  | case6 x xs y ys h1 h2 h3 h4 ih =>
    have hPQ : lcsLen (x :: xs) ys ≤ lcsLen xs (y :: ys) := Nat.not_lt.mp h3
    simp [diffEntries, lcsLen, h1, h2, h3, h4, kcount, kcount_append, ih,
      kcount_map_mk DiffKind.unchanged DiffKind.intralineHint (by decide),
      Nat.max_eq_left hPQ]
  | case7 x xs y ys h1 h2 h3 h4 ih =>
    have hPQ : lcsLen (x :: xs) ys ≤ lcsLen xs (y :: ys) := Nat.not_lt.mp h3
    simp [diffEntries, lcsLen, h1, h2, h3, h4, kcount, ih, Nat.max_eq_left hPQ]

theorem removed_count_add_unchanged (H : HintOracle) (a b : List Str) :
    kcount DiffKind.removed (diffEntries H a b) +
      kcount DiffKind.unchanged (diffEntries H a b) = a.length := by
  induction a, b using diffEntries.induct H with
  | case1 ys =>
    simp [diffEntries, kcount, kcount_map_mk DiffKind.removed DiffKind.added (by decide),
      kcount_map_mk DiffKind.unchanged DiffKind.added (by decide)]
  | case2 x xs ih =>
    try simp only [List.length_cons, List.length_nil] at ih
    simp [diffEntries, kcount]
    omega
  | case3 y xs ys ih =>
    try simp only [List.length_cons, List.length_nil] at ih
    simp [diffEntries, kcount]
    omega
  | case4 x xs y ys h1 h2 ih =>
    try simp only [List.length_cons, List.length_nil] at ih
    simp [diffEntries, h1, h2, kcount]
    omega
  | case5 x xs y ys h1 h2 h3 ih =>
    try simp only [List.length_cons, List.length_nil] at ih
    simp [diffEntries, h1, h2, h3, kcount]
    omega
  | case6 x xs y ys h1 h2 h3 h4 ih =>
    try simp only [List.length_cons, List.length_nil] at ih
    simp [diffEntries, h1, h2, h3, h4, kcount, kcount_append,
      kcount_map_mk DiffKind.removed DiffKind.intralineHint (by decide),
      kcount_map_mk DiffKind.unchanged DiffKind.intralineHint (by decide)]
    omega
  | case7 x xs y ys h1 h2 h3 h4 ih =>
    try simp only [List.length_cons, List.length_nil] at ih
    simp [diffEntries, h1, h2, h3, h4, kcount]
    omega

theorem added_count_add_unchanged (H : HintOracle) (a b : List Str) :
    kcount DiffKind.added (diffEntries H a b) +
      kcount DiffKind.unchanged (diffEntries H a b) = b.length := by
  induction a, b using diffEntries.induct H with
  | case1 ys =>
    simp [diffEntries, kcount, kcount_map_mk_same DiffKind.added,
      kcount_map_mk DiffKind.unchanged DiffKind.added (by decide)]
  | case2 x xs ih =>
    try simp only [List.length_cons, List.length_nil] at ih
    simp [diffEntries, kcount]
    omega
  | case3 y xs ys ih =>
    try simp only [List.length_cons, List.length_nil] at ih
    simp [diffEntries, kcount]
    omega
  | case4 x xs y ys h1 h2 ih =>
    try simp only [List.length_cons, List.length_nil] at ih
    simp [diffEntries, h1, h2, kcount]
    omega
  | case5 x xs y ys h1 h2 h3 ih =>
    try simp only [List.length_cons, List.length_nil] at ih
    simp [diffEntries, h1, h2, h3, kcount]
    omega
  | case6 x xs y ys h1 h2 h3 h4 ih =>
    try simp only [List.length_cons, List.length_nil] at ih
    simp [diffEntries, h1, h2, h3, h4, kcount, kcount_append,
      kcount_map_mk DiffKind.added DiffKind.intralineHint (by decide),
      kcount_map_mk DiffKind.unchanged DiffKind.intralineHint (by decide)]
    omega
  | case7 x xs y ys h1 h2 h3 h4 ih =>
    try simp only [List.length_cons, List.length_nil] at ih
    simp [diffEntries, h1, h2, h3, h4, kcount]
    omega

theorem diff_restore_b (H : HintOracle) (a b : List Str) :
    ((diffEntries H a b).filter keepsB).map DiffEntry.payload = b := by
  induction a, b using diffEntries.induct H with
  | case1 ys =>
    induction ys with
    | nil => simp [diffEntries]
    | cons y t ih => simp_all [diffEntries, List.filter_cons, keepsB]
  | case2 x xs ih => simp [diffEntries, List.filter_cons, keepsB, ih]
  | case3 y xs ys ih => simp [diffEntries, List.filter_cons, keepsB, ih]
  | case4 x xs y ys h1 h2 ih =>
    simp [diffEntries, h1, h2, List.filter_cons, keepsB, ih]
  | case5 x xs y ys h1 h2 h3 ih =>
    simp [diffEntries, h1, h2, h3, List.filter_cons, keepsB, ih]
  | case6 x xs y ys h1 h2 h3 h4 ih =>
    simp [diffEntries, h1, h2, h3, h4, List.filter_cons, List.filter_append, keepsB,
      filter_map_mk_nil DiffKind.intralineHint keepsB (fun _ => rfl), ih]
  | case7 x xs y ys h1 h2 h3 h4 ih =>
    simp [diffEntries, h1, h2, h3, h4, List.filter_cons, keepsB, ih]

/-- A notification emitted by one of the Worker's Qt signals
(src/main.py:17-21): `progress_updated`, `status_updated`,
`result_ready`, `error_occurred`, `finished`. -/
inductive Event : Type where
  | progress (v : Nat)
  | status (m : Str)
  | result (m : Str)
  | error (m : Str)
  | finished
deriving DecidableEq

/-- One step in the observable log of a run: a signal emission, or a
read ("poll") of the shared `_is_running` flag with the value read. -/
inductive Item : Type where
  | ev (e : Event)
  | poll (b : Bool)
deriving DecidableEq

/-- The value the `k`-th read (0-based) of `_is_running` sees.  The
flag starts `True` and `stop()` (src/main.py:99-100) clears it exactly
once, never resetting it, so an execution's view of the flag is a
monotone sequence: reads `0, ..., cancelAt-1` see `True`, later reads
see `False` (`cancelAt = none` means cancellation never happens). -/
def pollVal : Option Nat → Nat → Bool
  | none, _ => true
  | some k0, k => decide (k < k0)

/-- One input document: its base name (`Path(...).name`) and the
outcomes of the two extraction strategies for it.  `primary` is the
`pdfminer_extract(pdf_path)` call (src/main.py:82): it raises or
returns the whole text.  `fallback` is the `PdfReader(pdf_path)` call
(src/main.py:87): it raises, or yields the list of pages, where each
page's `page.extract_text()` call (src/main.py:94) raises or returns
an optional string (`none` standing for Python's `None`). -/
structure PdfFile : Type where
  name : Str
  primary : Except Str Str
  fallback : Except Str (List (Except Str (Option Str)))

/-- Message of the exception raised at src/main.py:97. -/
def extractErrMsg (e2 : Str) : Str := ("Ошибка извлечения текста: ".data) ++ e2

/-- The page-by-page fallback loop of `extract_text`
(src/main.py:89-95): for each page, poll the flag (returning `""` at
once when it is cleared), emit the interpolated progress value, then
extract the page's text, `None` becoming `""`; a raising page
propagates to the `except` at src/main.py:96.  Returns the result, the
emitted items, and the new poll count. -/
def fbLoop (c : Option Nat) (n : Nat) :
    List (Except Str (Option Str)) → Nat → Nat → Str →
      Except Str Str × List Item × Nat
  | [], _, polls, acc => (Except.ok acc, [], polls)
  | p :: rest, i, polls, acc =>
    if pollVal c polls then
      match p with
      | Except.error e2 =>
        (Except.error (extractErrMsg e2),
          [Item.poll true, Item.ev (Event.progress (10 + i * 40 / n))], polls + 1)
      | Except.ok t =>
        let r := fbLoop c n rest (i + 1) (polls + 1) (acc ++ t.getD [])
        (r.1, Item.poll true :: Item.ev (Event.progress (10 + i * 40 / n)) :: r.2.1, r.2.2)
    else (Except.ok [], [Item.poll false], polls + 1)

/-- Embedding of `Worker.extract_text` (src/main.py:79-97): try the primary
strategy; on any failure fall back to the page-by-page strategy; if
the fallback itself raises, raise the wrapped extraction error. -/
def Worker.extract_text (c : Option Nat) (f : PdfFile) (polls : Nat) :
    Except Str Str × List Item × Nat :=
  match f.primary with
  | Except.ok t => (Except.ok t, [], polls)
  | Except.error _ =>
    match f.fallback with
    | Except.error e2 => (Except.error (extractErrMsg e2), [], polls)
    | Except.ok pages => fbLoop c pages.length pages 0 polls []

/-- Characters Python's `str.splitlines` treats as single-character
line boundaries. -/
def isLineBreak (ch : Char) : Bool :=
  ch = '\n' || ch = '\r' || ch = '\x0b' || ch = '\x0c' || ch = '\x1c' ||
    ch = '\x1d' || ch = '\x1e' || ch = '\x85' || ch = ' ' || ch = ' '

/-- Worklist form of `str.splitlines`: `acc` holds the reversed
current line. -/
def splitlinesGo (acc : Str) : Str → List Str
  | [] => if acc.isEmpty then [] else [acc.reverse]
  | '\r' :: '\n' :: rest => acc.reverse :: splitlinesGo [] rest
  | ch :: rest =>
    if isLineBreak ch then acc.reverse :: splitlinesGo [] rest
    else splitlinesGo (ch :: acc) rest

/-- Python's `text.splitlines()` (src/main.py:45-46): split on line
boundaries (`\n`, `\r\n`, `\r` and the other Unicode line boundaries),
a trailing boundary producing no trailing empty line. -/
def splitlines (s : Str) : List Str := splitlinesGo [] s

/-- The status message `f"Извлечение текста из {Path(file).name}..."`
(src/main.py:31,37). -/
def extractingMsg (nm : Str) : Str :=
  ("Извлечение текста из ".data) ++ nm ++ ("...".data)

/-- The error message `f"Ошибка: {str(e)}"` (src/main.py:75). -/
def runErrMsg (m : Str) : Str := ("Ошибка: ".data) ++ m

/-- Status before comparison (src/main.py:43). -/
def compareMsg : Str := "Сравнение текстов...".data

/-- Status before formatting (src/main.py:52). -/
def formatMsg : Str := "Форматирование результатов...".data

/-- Decimal rendering of a number interpolated into an f-string. -/
def natStr (n : Nat) : Str := (Nat.repr n).data

/-- The final status message
`f"Сравнение завершено. {len(lines1)} к {len(lines2)} строк."`
(src/main.py:72). -/
def doneMsg (n1 n2 : Nat) : Str :=
  ("Сравнение завершено. ".data) ++ natStr n1 ++ (" к ".data) ++ natStr n2 ++
    (" строк.".data)

/-- The trailing summary line (src/main.py:69). -/
def summaryLine (added removed : Nat) : Str :=
  ("\n<b>Итого: ".data) ++ natStr added ++ (" добавлений, ".data) ++
    natStr removed ++ (" удалений</b>".data)

/-- The separator `"<br>"` of src/main.py:70. -/
def brSep : Str := "<br>".data

/-- The deletion styling `f'<span style="color:red">{line}</span>'`
(src/main.py:61). -/
def redSpan (l : Str) : Str :=
  ("<span style=\"color:red\">".data) ++ l ++ ("</span>".data)

/-- The addition styling `f'<span style="color:green">{line}</span>'`
(src/main.py:64). -/
def greenSpan (l : Str) : Str :=
  ("<span style=\"color:green\">".data) ++ l ++ ("</span>".data)

/-- The context styling `f'<span style="color:gray">{line}</span>'`
(src/main.py:67). -/
def graySpan (l : Str) : Str :=
  ("<span style=\"color:gray\">".data) ++ l ++ ("</span>".data)

/-- Embedding of `line.startswith(ab)` for a two-character prefix. -/
def startsWith2 (a b : Char) : Str → Bool
  | x :: y :: _ => x = a && y = b
  | _ => false

/-- The formatting loop of `Worker.run` (src/main.py:56-67): for each
diff line, poll the flag (aborting the whole run when it is cleared),
then classify the line by its tag, collecting styled lines and the
added/removed counters.  Returns `none` when cancelled, otherwise the
collected lines and counters, along with the emitted items (polls
only) and the new poll count. -/
def formatLoop (c : Option Nat) :
    List Str → Nat → List Str → Nat → Nat →
      Option (List Str × Nat × Nat) × List Item × Nat
  | [], polls, res, added, removed => (some (res, added, removed), [], polls)
  | l :: rest, polls, res, added, removed =>
    if pollVal c polls then
      let r :=
        if startsWith2 '-' ' ' l then
          formatLoop c rest (polls + 1) (res ++ [redSpan l]) added (removed + 1)
        else if startsWith2 '+' ' ' l then
          formatLoop c rest (polls + 1) (res ++ [greenSpan l]) (added + 1) removed
        else if startsWith2 '?' ' ' l then
          formatLoop c rest (polls + 1) res added removed
        else
          formatLoop c rest (polls + 1) (res ++ [graySpan l]) added removed
      (r.1, Item.poll true :: r.2.1, r.2.2)
    else (none, [Item.poll false], polls + 1)

/-- The comparison-and-formatting tail of `Worker.run`
(src/main.py:42-72), entered after both extractions succeeded and the
post-extraction flag check passed: progress 60, comparison status,
split into lines, diff, progress 80, formatting status, the formatting
loop, and — unless the loop was cancelled — the result payload,
progress 100 and the final status. -/
def Worker.runCompare (H : HintOracle) (c : Option Nat) (t1 t2 : Str)
    (polls : Nat) : List Item :=
  Item.ev (Event.progress 60) :: Item.ev (Event.status compareMsg) ::
    Item.ev (Event.progress 80) :: Item.ev (Event.status formatMsg) ::
    (match formatLoop c (differCompare H (splitlines t1) (splitlines t2)) polls [] 0 0 with
     | (none, fitems, _) => fitems
     | (some (res, added, removed), fitems, _) =>
       fitems ++
         [Item.ev (Event.result (List.intercalate brSep (res ++ [summaryLine added removed]))),
          Item.ev (Event.progress 100),
          Item.ev (Event.status (doneMsg (splitlines t1).length (splitlines t2).length))])

/-- The try body of `Worker.run` (src/main.py:30-72) together with
the `except` clause (src/main.py:74-75): first status, first
extraction, flag check, progress 30, second status, second extraction,
flag check, then `Worker.runCompare`; an early `return` on a cleared
flag stops the body, and an extraction failure is caught by the
`except`, which emits the single error notification. -/
def Worker.runBody (H : HintOracle) (f1 f2 : PdfFile) (c : Option Nat) :
    List Item :=
  Item.ev (Event.status (extractingMsg f1.name)) ::
    (match Worker.extract_text c f1 0 with
     | (Except.error m, it1, _) => it1 ++ [Item.ev (Event.error (runErrMsg m))]
     | (Except.ok t1, it1, p1) =>
       it1 ++
         (if pollVal c p1 then
           Item.poll true :: Item.ev (Event.progress 30) ::
             Item.ev (Event.status (extractingMsg f2.name)) ::
             (match Worker.extract_text c f2 (p1 + 1) with
              | (Except.error m, it2, _) =>
                it2 ++ [Item.ev (Event.error (runErrMsg m))]
              | (Except.ok t2, it2, p2) =>
                it2 ++
                  (if pollVal c p2 then
                    Item.poll true :: Worker.runCompare H c t1 t2 (p2 + 1)
                  else [Item.poll false]))
         else [Item.poll false]))

/-- Embedding of `Worker.run` (src/main.py:29-77): the body under
`try ... except`, then the `finally` clause, which always emits the
terminal `finished` notification (src/main.py:76-77). -/
def Worker.run (H : HintOracle) (f1 f2 : PdfFile) (c : Option Nat) :
    List Item :=
  Worker.runBody H f1 f2 c ++ [Item.ev Event.finished]

/-- The event part of a log item. -/
def itemEvent : Item → Option Event
  | Item.ev e => some e
  | Item.poll _ => none

/-- The notifications carried by a log, in emission order. -/
def eventsOf (items : List Item) : List Event := items.filterMap itemEvent

/-- The notification sequence one invocation of the worker emits. -/
def runEvents (H : HintOracle) (f1 f2 : PdfFile) (c : Option Nat) :
    List Event :=
  eventsOf (Worker.run H f1 f2 c)

/-- The progress values among a log's items, in order. -/
def progressValues (items : List Item) : List Nat :=
  items.filterMap fun it =>
    match it with
    | Item.ev (Event.progress v) => some v
    | _ => none

theorem fb_events_progress (c : Option Nat) (n : Nat)
    (ps : List (Except Str (Option Str))) (i polls : Nat) (acc : Str) :
    ∀ e, Item.ev e ∈ (fbLoop c n ps i polls acc).2.1 → ∃ v, e = Event.progress v := by
  induction ps generalizing i polls acc with
  | nil => simp [fbLoop]
  | cons p rest ih =>
    intro e he
    by_cases hp : pollVal c polls
    · cases p with
      | error e2 =>
        simp [fbLoop, hp] at he
        exact ⟨_, he⟩
      | ok t =>
        simp [fbLoop, hp] at he
        cases he with
        | inl h => exact ⟨_, h⟩
        | inr h => exact ih _ _ _ e h
  
    · simp [fbLoop, hp] at he

theorem pollVal_mono (c : Option Nat) (k j : Nat) (hk : pollVal c k = false)
    (hkj : k ≤ j) : pollVal c j = false := by
  cases c with
  | none => simp [pollVal] at hk
  | some k0 =>
    simp [pollVal] at hk ⊢
    omega

/-- Quiescence relation on log items: whatever follows a `False` poll
can only be the terminal `finished` notification. -/
def cancelRel (x y : Item) : Prop :=
  x = Item.poll false → ∀ e, y = Item.ev e → e = Event.finished

theorem cancelRel_of_ne (x y : Item) (h : x ≠ Item.poll false) : cancelRel x y :=
  fun hx => absurd hx h

theorem pairwise_of_no_false (l : List Item) (h : Item.poll false ∉ l) :
    l.Pairwise cancelRel := by
  induction l with
  | nil => exact List.Pairwise.nil
  | cons x t ih =>
    simp at h
    exact List.Pairwise.cons
      (fun y _ => cancelRel_of_ne x y (fun hx => h.1 hx.symm)) (ih h.2)

theorem fb_false_flag (c : Option Nat) (n : Nat)
    (ps : List (Except Str (Option Str))) (i polls : Nat) (acc : Str)
    (hmem : Item.poll false ∈ (fbLoop c n ps i polls acc).2.1) :
    pollVal c ((fbLoop c n ps i polls acc).2.2) = false := by
  induction ps generalizing i polls acc with
  | nil => simp [fbLoop] at hmem
  | cons p rest ih =>
    by_cases hp : pollVal c polls
    · cases p with
      | error e2 => simp [fbLoop, hp] at hmem
      | ok t =>
        simp only [fbLoop, hp, if_true] at hmem ⊢
        simp at hmem
        exact ih _ _ _ hmem
    · simp only [fbLoop, hp] at hmem ⊢
      simp
      exact pollVal_mono c polls (polls + 1) (by simp [hp]) (by omega)

theorem fb_err_no_false (c : Option Nat) (n : Nat)
    (ps : List (Except Str (Option Str))) (i polls : Nat) (acc : Str) (m : Str)
    (herr : (fbLoop c n ps i polls acc).1 = Except.error m) :
    Item.poll false ∉ (fbLoop c n ps i polls acc).2.1 := by
  induction ps generalizing i polls acc with
  | nil => simp [fbLoop]
  | cons p rest ih =>
    by_cases hp : pollVal c polls
    · cases p with
      | error e2 => simp [fbLoop, hp]
      | ok t =>
        simp only [fbLoop, hp, if_true] at herr ⊢
        simp
        exact ih _ _ _ herr
    · simp [fbLoop, hp] at herr

theorem fb_pairwise (c : Option Nat) (n : Nat)
    (ps : List (Except Str (Option Str))) (i polls : Nat) (acc : Str) :
    (fbLoop c n ps i polls acc).2.1.Pairwise cancelRel := by
  induction ps generalizing i polls acc with
  | nil => simp [fbLoop]
  | cons p rest ih =>
    by_cases hp : pollVal c polls
    · cases p with
      | error e2 =>
        simp only [fbLoop, hp, if_true]
        exact List.Pairwise.cons
          (fun y _ => cancelRel_of_ne _ y (by simp))
          (List.Pairwise.cons (fun y hy => by simp at hy) List.Pairwise.nil)
      | ok t =>
        simp only [fbLoop, hp, if_true]
        exact List.Pairwise.cons
          (fun y _ => cancelRel_of_ne _ y (by simp))
          (List.Pairwise.cons
            (fun y _ => cancelRel_of_ne _ y (by simp)) (ih _ _ _))
    · simp only [fbLoop, hp, if_false]
      simp

/-- A page's contribution to the fallback text:
`page.extract_text() or ""` (src/main.py:94). -/
def pageText : Except Str (Option Str) → Str
  | Except.ok t => t.getD []
  | Except.error _ => []

/-- The concatenated per-page output of the fallback strategy. -/
def pagesText (ps : List (Except Str (Option Str))) : Str :=
  (ps.map pageText).flatten

theorem fb_none_value (n : Nat) (ps : List (Except Str (Option Str)))
    (i polls : Nat) (acc : Str)
    (hall : ∀ p ∈ ps, ∃ t, p = Except.ok t) :
    (fbLoop none n ps i polls acc).1 = Except.ok (acc ++ pagesText ps) := by
  induction ps generalizing i polls acc with
  | nil => simp [fbLoop, pagesText]
  | cons p rest ih =>
    simp at hall
    obtain ⟨⟨t, h29⟩, hrest⟩ := hall
    subst h29
    simp only [fbLoop, pollVal, if_true]
    rw [ih _ _ _ hrest]
    simp [pagesText, pageText]

theorem fb_ok_of_all_ok (c : Option Nat) (n : Nat)
    (ps : List (Except Str (Option Str))) (i polls : Nat) (acc : Str)
    (hall : ∀ p ∈ ps, ∃ t, p = Except.ok t) :
    ∃ tr, (fbLoop c n ps i polls acc).1 = Except.ok tr := by
  induction ps generalizing i polls acc with
  | nil => simp [fbLoop]
  | cons p rest ih =>
    simp at hall
    obtain ⟨⟨t, h30⟩, hrest⟩ := hall
    subst h30
    by_cases hp : pollVal c polls
    · simp only [fbLoop, hp, if_true]
      exact ih _ _ _ hrest
    · simp [fbLoop, hp]

theorem fb_error_first (n : Nat) (pre rest : List (Except Str (Option Str)))
    (m : Str) (i polls : Nat) (acc : Str)
    (hpre : ∀ q ∈ pre, ∃ t, q = Except.ok t) :
    (fbLoop none n (pre ++ Except.error m :: rest) i polls acc).1 =
      Except.error (extractErrMsg m) := by
  induction pre generalizing i polls acc with
  | nil => simp [fbLoop, pollVal]
  | cons q qs ih =>
    simp at hpre
    obtain ⟨⟨t, h31⟩, hqs⟩ := hpre
    subst h31
    simp only [List.cons_append, fbLoop, pollVal, if_true]
    exact ih _ _ _ hqs

theorem fb_error_mem (c : Option Nat) (n : Nat)
    (ps : List (Except Str (Option Str))) (i polls : Nat) (acc : Str) (mm : Str)
    (herr : (fbLoop c n ps i polls acc).1 = Except.error mm) :
    ∃ e2 pre rest, mm = extractErrMsg e2 ∧ ps = pre ++ Except.error e2 :: rest := by
  induction ps generalizing i polls acc with
  | nil => simp [fbLoop] at herr
  | cons p rest ih =>
    by_cases hp : pollVal c polls
    · cases p with
      | error e2 =>
        simp [fbLoop, hp] at herr
        exact ⟨e2, [], rest, herr.symm, by simp⟩
      | ok t =>
        simp only [fbLoop, hp, if_true] at herr
        obtain ⟨e2, pre, rest2, hmm, hps⟩ := ih _ _ _ herr
        exact ⟨e2, Except.ok t :: pre, rest2, hmm, by simp [hps]⟩
    · simp [fbLoop, hp] at herr

theorem fb_progress_range (c : Option Nat) (n : Nat)
    (ps : List (Except Str (Option Str))) (i polls : Nat) (acc : Str) :
    ∃ m, m ≤ ps.length ∧
      progressValues (fbLoop c n ps i polls acc).2.1 =
        (List.range m).map (fun j => 10 + (i + j) * 40 / n) := by
  induction ps generalizing i polls acc with
  | nil => exact ⟨0, by simp [fbLoop, progressValues]⟩
  | cons p rest ih =>
    by_cases hp : pollVal c polls
    · cases p with
      | error e2 =>
        refine ⟨1, by simp, ?_⟩
        simp [fbLoop, hp, progressValues, List.range_succ]
      | ok t =>
        obtain ⟨m, hm, hv⟩ := ih (i + 1) (polls + 1) (acc ++ t.getD [])
        refine ⟨m + 1, by simp ; omega, ?_⟩
        simp only [fbLoop, hp, if_true]
        simp [progressValues] at hv ⊢
        rw [hv, List.range_succ_eq_map]
        simp [List.map_map, Function.comp]
        intro a _
        congr 1
        omega
    · refine ⟨0, by simp, ?_⟩
      simp [fbLoop, hp, progressValues]

theorem mem_eventsOf (e : Event) (items : List Item) :
    e ∈ eventsOf items ↔ Item.ev e ∈ items := by
  simp only [eventsOf, List.mem_filterMap]
  constructor
  · rintro ⟨it, hmem, hit⟩
    cases it with
    | ev e2 => simp [itemEvent] at hit ; subst hit ; exact hmem
    | poll b => simp [itemEvent] at hit
  · intro h
    exact ⟨Item.ev e, h, rfl⟩

theorem ext_events_progress (c : Option Nat) (f : PdfFile) (polls : Nat) :
    ∀ e, Item.ev e ∈ (Worker.extract_text c f polls).2.1 →
      ∃ v, e = Event.progress v := by
  intro e he
  unfold Worker.extract_text at he
  cases hpr : f.primary with
  | ok t => simp [hpr] at he
  | error ep =>
    cases hfb : f.fallback with
    | error e2 => simp [hpr, hfb] at he
    | ok pages =>
      simp only [hpr, hfb] at he
      exact fb_events_progress c pages.length pages 0 polls [] e he

theorem ext_false_flag (c : Option Nat) (f : PdfFile) (polls : Nat)
    (hmem : Item.poll false ∈ (Worker.extract_text c f polls).2.1) :
    pollVal c ((Worker.extract_text c f polls).2.2) = false := by
  unfold Worker.extract_text at hmem ⊢
  cases hpr : f.primary with
  | ok t => simp [hpr] at hmem
  | error ep =>
    cases hfb : f.fallback with
    | error e2 => simp [hpr, hfb] at hmem
    | ok pages =>
      simp only [hpr, hfb] at hmem ⊢
      exact fb_false_flag c pages.length pages 0 polls [] hmem

theorem ext_err_no_false (c : Option Nat) (f : PdfFile) (polls : Nat) (m : Str)
    (herr : (Worker.extract_text c f polls).1 = Except.error m) :
    Item.poll false ∉ (Worker.extract_text c f polls).2.1 := by
  unfold Worker.extract_text at herr ⊢
  cases hpr : f.primary with
  | ok t => simp [hpr]
  | error ep =>
    cases hfb : f.fallback with
    | error e2 => simp [hpr, hfb]
    | ok pages =>
      simp only [hpr, hfb] at herr ⊢
      exact fb_err_no_false c pages.length pages 0 polls [] m herr

theorem ext_pairwise (c : Option Nat) (f : PdfFile) (polls : Nat) :
    (Worker.extract_text c f polls).2.1.Pairwise cancelRel := by
  unfold Worker.extract_text
  cases hpr : f.primary with
  | ok t => simp
  | error ep =>
    cases hfb : f.fallback with
    | error e2 => simp
    | ok pages => exact fb_pairwise c pages.length pages 0 polls []

theorem ext_error_shape (c : Option Nat) (f : PdfFile) (polls : Nat) (m : Str)
    (herr : (Worker.extract_text c f polls).1 = Except.error m) :
    (∃ e, f.primary = Except.error e) ∧
      ∃ e2, m = extractErrMsg e2 ∧
        (f.fallback = Except.error e2 ∨
          ∃ pre rest, f.fallback = Except.ok (pre ++ Except.error e2 :: rest)) := by
  unfold Worker.extract_text at herr
  cases hpr : f.primary with
  | ok t => simp [hpr] at herr
  | error ep =>
    cases hfb : f.fallback with
    | error e2 =>
      simp [hpr, hfb] at herr
      exact ⟨⟨ep, rfl⟩, e2, herr.symm, Or.inl rfl⟩
    | ok pages =>
      simp only [hpr, hfb] at herr
      obtain ⟨e2, pre, rest, hmm, hps⟩ :=
        fb_error_mem c pages.length pages 0 polls [] m herr
      exact ⟨⟨ep, rfl⟩, e2, hmm, Or.inr ⟨pre, rest, by rw [hps]⟩⟩

/-- What the formatting loop does to one diff line: the styled line it
appends, or `none` for a dropped `'? '` marker line. -/
def renderLine (l : Str) : Option Str :=
  if startsWith2 '-' ' ' l then some (redSpan l)
  else if startsWith2 '+' ' ' l then some (greenSpan l)
  else if startsWith2 '?' ' ' l then none
  else some (graySpan l)

/-- The styled lines of the rendered report body, in order. -/
def renderedBody (d : List Str) : List Str := d.filterMap renderLine

/-- Number of diff lines counted as additions by the loop. -/
def addedPref (d : List Str) : Nat := d.countP (fun l => startsWith2 '+' ' ' l)

/-- Number of diff lines counted as deletions by the loop. -/
def removedPref (d : List Str) : Nat := d.countP (fun l => startsWith2 '-' ' ' l)

theorem startsWith2_ne (a b a2 : Char) (l : Str) (hne : a = a2 → False)
    (h : startsWith2 a b l = true) : startsWith2 a2 b l = false := by
  cases l with
  | nil => simp [startsWith2] at h
  | cons x t =>
    cases t with
    | nil => simp [startsWith2] at h
    | cons y t2 =>
      simp [startsWith2] at h ⊢
      intro hx
      exact absurd (hx ▸ h.1 : a2 = a).symm hne

theorem fmt_none_complete (d : List Str) (polls : Nat) (res : List Str)
    (added removed : Nat) :
    formatLoop none d polls res added removed =
      (some (res ++ renderedBody d, added + addedPref d, removed + removedPref d),
        List.replicate d.length (Item.poll true), polls + d.length) := by
  induction d generalizing polls res added removed with
  | nil => simp [formatLoop, renderedBody, addedPref, removedPref]
  | cons l rest ih =>
    by_cases h1 : startsWith2 '-' ' ' l
    · simp [formatLoop, pollVal, h1, ih, renderedBody, renderLine, addedPref,
        removedPref, List.countP_cons, List.replicate_succ,
        startsWith2_ne '-' ' ' '+' l (by decide) h1]
      omega
    · by_cases h2 : startsWith2 '+' ' ' l
      · simp [formatLoop, pollVal, h1, h2, ih, renderedBody, renderLine, addedPref,
          removedPref, List.countP_cons, List.replicate_succ]
        omega
      · by_cases h3 : startsWith2 '?' ' ' l
        · simp [formatLoop, pollVal, h1, h2, h3, ih, renderedBody, renderLine,
            addedPref, removedPref, List.countP_cons, List.replicate_succ]
          omega
        · simp [formatLoop, pollVal, h1, h2, h3, ih, renderedBody, renderLine,
            addedPref, removedPref, List.countP_cons, List.replicate_succ]
          omega

theorem fmt_polls_only (c : Option Nat) (d : List Str) (polls : Nat)
    (res : List Str) (added removed : Nat) :
    ∀ it ∈ (formatLoop c d polls res added removed).2.1, ∃ b, it = Item.poll b := by
  induction d generalizing polls res added removed with
  | nil => simp [formatLoop]
  | cons l rest ih =>
    intro it hit
    by_cases hp : pollVal c polls
    · by_cases h1 : startsWith2 '-' ' ' l
      · simp [formatLoop, hp, h1] at hit
        cases hit with
        | inl h => exact ⟨true, h⟩
        | inr h => exact ih _ _ _ _ it h
      · by_cases h2 : startsWith2 '+' ' ' l
        · simp [formatLoop, hp, h1, h2] at hit
          cases hit with
          | inl h => exact ⟨true, h⟩
          | inr h => exact ih _ _ _ _ it h
        · by_cases h3 : startsWith2 '?' ' ' l
          · simp [formatLoop, hp, h1, h2, h3] at hit
            cases hit with
            | inl h => exact ⟨true, h⟩
            | inr h => exact ih _ _ _ _ it h
          · simp [formatLoop, hp, h1, h2, h3] at hit
            cases hit with
            | inl h => exact ⟨true, h⟩
            | inr h => exact ih _ _ _ _ it h
    · simp [formatLoop, hp] at hit
      exact ⟨false, hit⟩

theorem fmt_some_no_false (c : Option Nat) (d : List Str) (polls : Nat)
    (res : List Str) (added removed : Nat) (out : List Str × Nat × Nat)
    (hsome : (formatLoop c d polls res added removed).1 = some out) :
    Item.poll false ∉ (formatLoop c d polls res added removed).2.1 := by
  induction d generalizing polls res added removed with
  | nil => simp [formatLoop]
  | cons l rest ih =>
    by_cases hp : pollVal c polls
    · by_cases h1 : startsWith2 '-' ' ' l
      · simp only [formatLoop, hp, h1, if_true] at hsome ⊢
        simp at hsome ⊢
        exact ih _ _ _ _ hsome
      · by_cases h2 : startsWith2 '+' ' ' l
        · simp only [formatLoop, hp, h1, h2, if_true, if_false] at hsome ⊢
          simp at hsome ⊢
          exact ih _ _ _ _ hsome
        · by_cases h3 : startsWith2 '?' ' ' l
          · simp only [formatLoop, hp, h1, h2, h3, if_true, if_false] at hsome ⊢
            simp at hsome ⊢
            exact ih _ _ _ _ hsome
          · simp only [formatLoop, hp, h1, h2, h3, if_true, if_false] at hsome ⊢
            simp at hsome ⊢
            exact ih _ _ _ _ hsome
    · simp [formatLoop, hp] at hsome

/-- Entries that are not intraline hints. -/
def notHint (en : DiffEntry) : Bool :=
  match en.kind with
  | DiffKind.intralineHint => false
  | _ => true

/-- The styled line the formatter produces for a (non-hint) entry. -/
def spanOfEntry (en : DiffEntry) : Str :=
  match en.kind with
  | DiffKind.removed => redSpan (renderEntry en)
  | DiffKind.added => greenSpan (renderEntry en)
  | _ => graySpan (renderEntry en)

theorem addedPref_entries (es : List DiffEntry) :
    addedPref (es.map renderEntry) = kcount DiffKind.added es := by
  induction es with
  | nil => rfl
  | cons en rest ih =>
    obtain ⟨k, p⟩ := en
    cases k <;>
      simp [addedPref, List.countP_cons, renderEntry, tagOf, startsWith2,
        kcount] at ih ⊢ <;>
      omega

theorem removedPref_entries (es : List DiffEntry) :
    removedPref (es.map renderEntry) = kcount DiffKind.removed es := by
  induction es with
  | nil => rfl
  | cons en rest ih =>
    obtain ⟨k, p⟩ := en
    cases k <;>
      simp [removedPref, List.countP_cons, renderEntry, tagOf, startsWith2,
        kcount] at ih ⊢ <;>
      omega

theorem renderedBody_entries (es : List DiffEntry) :
    renderedBody (es.map renderEntry) = (es.filter notHint).map spanOfEntry := by
  induction es with
  | nil => rfl
  | cons en rest ih =>
    obtain ⟨k, p⟩ := en
    cases k <;>
      simp [renderedBody, List.filterMap_cons, List.filter_cons, renderLine,
        renderEntry, tagOf, startsWith2, notHint, spanOfEntry] at ih ⊢ <;>
      simp [ih, renderEntry, tagOf]

theorem cancelRel_poll (x : Item) (b : Bool) : cancelRel x (Item.poll b) :=
  fun _ e he => by simp at he

theorem pairwise_all_polls (l : List Item)
    (h : ∀ it ∈ l, ∃ b, it = Item.poll b) : l.Pairwise cancelRel := by
  induction l with
  | nil => exact List.Pairwise.nil
  | cons x t ih =>
    refine List.Pairwise.cons ?_ (ih (fun it hit => h it (by simp [hit])))
    intro y hy
    obtain ⟨b, hb⟩ := h y (by simp [hy])
    subst hb
    exact cancelRel_poll x b

theorem rc_no_finished (H : HintOracle) (c : Option Nat) (t1 t2 : Str)
    (polls : Nat) :
    Item.ev Event.finished ∉ Worker.runCompare H c t1 t2 polls := by
  unfold Worker.runCompare
  rcases hq : formatLoop c (differCompare H (splitlines t1) (splitlines t2)) polls [] 0 0
    with ⟨r, fitems, p2⟩
  intro hmem
  cases r with
  | none =>
    simp at hmem
    obtain ⟨b, hb⟩ :=
      fmt_polls_only c _ polls [] 0 0 (Item.ev Event.finished) (by rw [hq] ; exact hmem)
    simp at hb
  | some out =>
    obtain ⟨res, added, removed⟩ := out
    simp at hmem
    obtain ⟨b, hb⟩ :=
      fmt_polls_only c _ polls [] 0 0 (Item.ev Event.finished) (by rw [hq] ; exact hmem)
    simp at hb

theorem rc_pairwise (H : HintOracle) (c : Option Nat) (t1 t2 : Str)
    (polls : Nat) :
    (Worker.runCompare H c t1 t2 polls).Pairwise cancelRel := by
  unfold Worker.runCompare
  rcases hq : formatLoop c (differCompare H (splitlines t1) (splitlines t2)) polls [] 0 0
    with ⟨r, fitems, p2⟩
  have hpolls : ∀ it ∈ fitems, ∃ b, it = Item.poll b := by
    intro it hit
    exact fmt_polls_only c _ polls [] 0 0 it (by rw [hq] ; exact hit)
  refine List.Pairwise.cons (fun y _ => cancelRel_of_ne _ y (by simp)) ?_
  refine List.Pairwise.cons (fun y _ => cancelRel_of_ne _ y (by simp)) ?_
  refine List.Pairwise.cons (fun y _ => cancelRel_of_ne _ y (by simp)) ?_
  refine List.Pairwise.cons (fun y _ => cancelRel_of_ne _ y (by simp)) ?_
  cases r with
  | none => exact pairwise_all_polls fitems hpolls
  | some out =>
    have hnf : Item.poll false ∉ fitems := by
      have := fmt_some_no_false c _ polls [] 0 0 out (by rw [hq])
      rwa [hq] at this
    rw [List.pairwise_append]
    refine ⟨pairwise_of_no_false fitems hnf, ?_, ?_⟩
    · obtain ⟨res, added, removed⟩ := out
      refine List.Pairwise.cons (fun y _ => cancelRel_of_ne _ y (by simp)) ?_
      refine List.Pairwise.cons (fun y _ => cancelRel_of_ne _ y (by simp)) ?_
      refine List.Pairwise.cons (fun y hy => by simp at hy) List.Pairwise.nil
    · intro x hx y hy
      exact cancelRel_of_ne x y (fun h33 => hnf (h33 ▸ hx))

theorem body_pairwise (H : HintOracle) (f1 f2 : PdfFile) (c : Option Nat) :
    (Worker.runBody H f1 f2 c).Pairwise cancelRel := by
  unfold Worker.runBody
  rcases hq1 : Worker.extract_text c f1 0 with ⟨r1, it1, p1⟩
  refine List.Pairwise.cons (fun y _ => cancelRel_of_ne _ y (by simp)) ?_
  cases r1 with
  | error m =>
    have hnf : Item.poll false ∉ it1 := by
      have h0 := ext_err_no_false c f1 0 m (by rw [hq1])
      rw [hq1] at h0
      exact h0
    rw [List.pairwise_append]
    exact ⟨pairwise_of_no_false it1 hnf,
      List.Pairwise.cons (fun y hy => by simp at hy) List.Pairwise.nil,
      fun x hx y hy => cancelRel_of_ne x y (fun hxx => hnf (hxx ▸ hx))⟩
  | ok t1 =>
    have hpw1 : it1.Pairwise cancelRel := by
      have h0 := ext_pairwise c f1 0
      rw [hq1] at h0
      exact h0
    by_cases hp1 : pollVal c p1
    · have hext1 : Item.poll false ∈ it1 → pollVal c p1 = false := by
        intro hm
        have h0 := ext_false_flag c f1 0 (by rw [hq1] ; exact hm)
        rw [hq1] at h0
        exact h0
      have hnf1 : Item.poll false ∉ it1 := fun hm => by simp [hext1 hm] at hp1
      simp only [hp1, if_true]
      rw [List.pairwise_append]
      refine ⟨pairwise_of_no_false it1 hnf1, ?_, ?_⟩
      · refine List.Pairwise.cons (fun y _ => cancelRel_of_ne _ y (by simp)) ?_
        refine List.Pairwise.cons (fun y _ => cancelRel_of_ne _ y (by simp)) ?_
        refine List.Pairwise.cons (fun y _ => cancelRel_of_ne _ y (by simp)) ?_
        rcases hq2 : Worker.extract_text c f2 (p1 + 1) with ⟨r2, it2, p2⟩
        cases r2 with
        | error m =>
          have hnf2 : Item.poll false ∉ it2 := by
            have h0 := ext_err_no_false c f2 (p1 + 1) m (by rw [hq2])
            rw [hq2] at h0
            exact h0
          rw [List.pairwise_append]
          exact ⟨pairwise_of_no_false it2 hnf2,
            List.Pairwise.cons (fun y hy => by simp at hy) List.Pairwise.nil,
            fun x hx y hy => cancelRel_of_ne x y (fun hxx => hnf2 (hxx ▸ hx))⟩
        | ok t2 =>
          have hpw2 : it2.Pairwise cancelRel := by
            have h0 := ext_pairwise c f2 (p1 + 1)
            rw [hq2] at h0
            exact h0
          by_cases hp2 : pollVal c p2
          · have hext2 : Item.poll false ∈ it2 → pollVal c p2 = false := by
              intro hm
              have h0 := ext_false_flag c f2 (p1 + 1) (by rw [hq2] ; exact hm)
              rw [hq2] at h0
              exact h0
            have hnf2 : Item.poll false ∉ it2 := fun hm => by simp [hext2 hm] at hp2
            simp only [hp2, if_true]
            rw [List.pairwise_append]
            refine ⟨pairwise_of_no_false it2 hnf2, ?_, ?_⟩
            · exact List.Pairwise.cons
                (fun y _ => cancelRel_of_ne _ y (by simp))
                (rc_pairwise H c t1 t2 (p2 + 1))
            · intro x hx y hy
              exact cancelRel_of_ne x y (fun hxx => hnf2 (hxx ▸ hx))
          · simp only [hp2, if_false]
            rw [List.pairwise_append]
            exact ⟨hpw2,
              List.Pairwise.cons (fun y hy => by simp at hy) List.Pairwise.nil,
              fun x hx y hy => by
                simp at hy
                subst hy
                exact cancelRel_poll x false⟩
      · intro x hx y hy
        exact cancelRel_of_ne x y (fun hxx => hnf1 (hxx ▸ hx))
    · simp only [hp1, if_false]
      rw [List.pairwise_append]
      exact ⟨hpw1,
        List.Pairwise.cons (fun y hy => by simp at hy) List.Pairwise.nil,
        fun x hx y hy => by
          simp at hy
          subst hy
          exact cancelRel_poll x false⟩

theorem run_pairwise (H : HintOracle) (f1 f2 : PdfFile) (c : Option Nat) :
    (Worker.run H f1 f2 c).Pairwise cancelRel := by
  unfold Worker.run
  rw [List.pairwise_append]
  refine ⟨body_pairwise H f1 f2 c,
    List.Pairwise.cons (fun y hy => by simp at hy) List.Pairwise.nil, ?_⟩
  intro x hx y hy
  simp at hy
  subst hy
  intro _ e he
  simp at he
  exact he.symm

theorem ext_no_finished (c : Option Nat) (f : PdfFile) (polls : Nat) :
    Item.ev Event.finished ∉ (Worker.extract_text c f polls).2.1 := by
  intro hmem
  obtain ⟨v, hv⟩ := ext_events_progress c f polls Event.finished hmem
  cases hv

theorem body_no_finished (H : HintOracle) (f1 f2 : PdfFile) (c : Option Nat) :
    Item.ev Event.finished ∉ Worker.runBody H f1 f2 c := by
  unfold Worker.runBody
  rcases hq1 : Worker.extract_text c f1 0 with ⟨r1, it1, p1⟩
  have hnf1 : Item.ev Event.finished ∉ it1 := by
    have h0 := ext_no_finished c f1 0
    rw [hq1] at h0
    exact h0
  intro hmem
  cases r1 with
  | error m => simp [hnf1] at hmem
  | ok t1 =>
    by_cases hp1 : pollVal c p1
    · simp only [hp1, if_true] at hmem
      rcases hq2 : Worker.extract_text c f2 (p1 + 1) with ⟨r2, it2, p2⟩
      rw [hq2] at hmem
      have hnf2 : Item.ev Event.finished ∉ it2 := by
        have h0 := ext_no_finished c f2 (p1 + 1)
        rw [hq2] at h0
        exact h0
      cases r2 with
      | error m => simp [hnf1, hnf2] at hmem
      | ok t2 =>
        by_cases hp2 : pollVal c p2
        · simp only [hp2, if_true] at hmem
          simp [hnf1, hnf2] at hmem
          exact rc_no_finished H c t1 t2 (p2 + 1) hmem
        · simp only [hp2, if_false] at hmem
          simp [hnf1, hnf2] at hmem
    · simp only [hp1, if_false] at hmem
      simp [hnf1] at hmem

theorem body_err_trace (H : HintOracle) (f1 f2 : PdfFile) (c : Option Nat)
    (m : Str) (he : (Worker.extract_text c f1 0).1 = Except.error m) :
    runEvents H f1 f2 c =
      Event.status (extractingMsg f1.name) ::
        (eventsOf (Worker.extract_text c f1 0).2.1 ++
          [Event.error (runErrMsg m), Event.finished]) := by
  unfold runEvents Worker.run Worker.runBody
  rcases hq1 : Worker.extract_text c f1 0 with ⟨r1, it1, p1⟩
  rw [hq1] at he
  cases r1 with
  | error m2 =>
    simp at he
    subst he
    simp [eventsOf, List.filterMap_append, itemEvent]
  | ok t1 => simp at he

theorem run_zero_ok_trace (H : HintOracle) (f1 f2 : PdfFile) (t1 : Str)
    (hok : (Worker.extract_text (some 0) f1 0).1 = Except.ok t1) :
    runEvents H f1 f2 (some 0) =
      Event.status (extractingMsg f1.name) ::
        (eventsOf (Worker.extract_text (some 0) f1 0).2.1 ++ [Event.finished]) := by
  unfold runEvents Worker.run Worker.runBody
  rcases hq1 : Worker.extract_text (some 0) f1 0 with ⟨r1, it1, p1⟩
  rw [hq1] at hok
  cases r1 with
  | error m2 => simp at hok
  | ok t2 =>
    have hp : pollVal (some 0) p1 = false := by simp [pollVal]
    simp [hp, eventsOf, List.filterMap_append, itemEvent]

theorem body_err2_trace (H : HintOracle) (f1 f2 : PdfFile) (c : Option Nat)
    (t1 m : Str) (h1 : (Worker.extract_text c f1 0).1 = Except.ok t1)
    (hp : pollVal c (Worker.extract_text c f1 0).2.2 = true)
    (h2 : (Worker.extract_text c f2
        ((Worker.extract_text c f1 0).2.2 + 1)).1 = Except.error m) :
    runEvents H f1 f2 c =
      Event.status (extractingMsg f1.name) ::
        (eventsOf (Worker.extract_text c f1 0).2.1 ++
          Event.progress 30 :: Event.status (extractingMsg f2.name) ::
            (eventsOf (Worker.extract_text c f2
                ((Worker.extract_text c f1 0).2.2 + 1)).2.1 ++
              [Event.error (runErrMsg m), Event.finished])) := by
  unfold runEvents Worker.run Worker.runBody
  rcases hq1 : Worker.extract_text c f1 0 with ⟨r1, it1, p1⟩
  rw [hq1] at h1 hp h2
  simp only [] at h1 hp h2
  cases r1 with
  | error m2 => simp at h1
  | ok t2 =>
    simp only [hp, if_true]
    rcases hq2 : Worker.extract_text c f2 (p1 + 1) with ⟨r2, it2, p2⟩
    rw [hq2] at h2
    cases r2 with
    | error m2 =>
      simp at h2
      subst h2
      simp [eventsOf, List.filterMap_append, itemEvent]
    | ok t3 => simp at h2

theorem eventsOf_ext_progress (c : Option Nat) (f : PdfFile) (p : Nat) :
    ∀ e ∈ eventsOf (Worker.extract_text c f p).2.1, ∃ v, e = Event.progress v :=
  fun e he => ext_events_progress c f p e ((mem_eventsOf e _).mp he)

theorem run_finished_shape (H : HintOracle) (f1 f2 : PdfFile) (c : Option Nat) :
    ∃ pre, runEvents H f1 f2 c = pre ++ [Event.finished] ∧
      Event.finished ∉ pre := by
  refine ⟨eventsOf (Worker.runBody H f1 f2 c), ?_, ?_⟩
  · simp [runEvents, Worker.run, eventsOf, List.filterMap_append, itemEvent]
  · intro hmem
    exact body_no_finished H f1 f2 c ((mem_eventsOf _ _).mp hmem)

/-- Claim C7: for every invocation of the task — whether it completes
successfully, is cancelled at any checkpoint, or fails with an error —
the `finished` notification is emitted exactly once, and no other
notification of the invocation is emitted after it (it is the last
event of the run, the `finally` clause of src/main.py:76-77). -/
theorem finished_exactly_once_and_last (H : HintOracle) (f1 f2 : PdfFile)
    (c : Option Nat) :
    (runEvents H f1 f2 c).count Event.finished = 1 ∧
      ∃ pre, runEvents H f1 f2 c = pre ++ [Event.finished] ∧
        Event.finished ∉ pre := by
  obtain ⟨pre, hsh, hnm⟩ := run_finished_shape H f1 f2 c
  refine ⟨?_, pre, hsh, hnm⟩
  rw [hsh, List.count_append]
  simp [List.count_eq_zero_of_not_mem hnm]

/-- Claim C3 (amended): once any checkpoint observes the cleared
running flag, no further progress, status, result, or error
notification is emitted — only the terminal `finished`.  Cancelling
before any progress notification yields no `result` and exactly one
`finished`, but it can still yield an `error`: an error notification
is emitted while cancelled exactly when the in-flight extraction
itself fails (the error path of src/main.py:74-75 never checks the
flag). -/
theorem cancel_quiescence_amended (H : HintOracle) (f1 f2 : PdfFile)
    (c : Option Nat) :
    (∀ l1 l2 e, Worker.run H f1 f2 c = l1 ++ Item.poll false :: l2 →
        Item.ev e ∈ l2 → e = Event.finished) ∧
    (∀ r, Event.result r ∉ runEvents H f1 f2 (some 0)) ∧
    (∀ m, Event.error m ∈ runEvents H f1 f2 (some 0) →
        ∃ m2, (Worker.extract_text (some 0) f1 0).1 = Except.error m2) ∧
    (∃ pre, runEvents H f1 f2 (some 0) = pre ++ [Event.finished] ∧
        Event.finished ∉ pre) := by
  refine ⟨?_, ?_, ?_, run_finished_shape H f1 f2 (some 0)⟩
  · intro l1 l2 e hsplit hmem
    have hpw := run_pairwise H f1 f2 c
    rw [hsplit] at hpw
    have hsub : List.Pairwise cancelRel (Item.poll false :: l2) :=
      hpw.sublist (List.sublist_append_right l1 (Item.poll false :: l2))
    have hall := (List.pairwise_cons.mp hsub).1 (Item.ev e) hmem
    exact hall rfl e rfl
  · intro r hmem
    cases hr : (Worker.extract_text (some 0) f1 0).1 with
    | error m =>
      rw [body_err_trace H f1 f2 (some 0) m hr] at hmem
      simp at hmem
      obtain ⟨v, hv⟩ := eventsOf_ext_progress (some 0) f1 0 (Event.result r) hmem
      cases hv
    | ok t =>
      rw [run_zero_ok_trace H f1 f2 t hr] at hmem
      simp at hmem
      obtain ⟨v, hv⟩ := eventsOf_ext_progress (some 0) f1 0 (Event.result r) hmem
      cases hv
  · intro m hmem
    cases hr : (Worker.extract_text (some 0) f1 0).1 with
    | error m2 => exact ⟨m2, rfl⟩
    | ok t =>
      rw [run_zero_ok_trace H f1 f2 t hr] at hmem
      simp at hmem
      obtain ⟨v, hv⟩ := eventsOf_ext_progress (some 0) f1 0 (Event.error m) hmem
      cases hv

/-- Trivial hint oracle used in the concrete test fixtures. -/
def H0 : HintOracle := fun _ _ => ([], [])

/-- A document for which both extraction strategies fail. -/
def fileBothFail : PdfFile :=
  PdfFile.mk ("a.pdf".data) (Except.error ("p".data)) (Except.error ("boom".data))

/-- A document whose primary extraction succeeds with text `"x"`. -/
def filePlain : PdfFile :=
  PdfFile.mk ("b.pdf".data) (Except.ok ("x".data)) (Except.ok [])

/-- Claim C3, counterexample: with the running flag cleared before the
very first checkpoint (cancelled before any progress notification) and
a first document for which both extraction strategies fail, the run
still emits an `error` notification, contradicting the claim that
cancelling before any progress notification yields no error. -/
theorem cancel_quiescence_cex :
    runEvents H0 fileBothFail filePlain (some 0) =
      [Event.status (extractingMsg ("a.pdf".data)),
       Event.error (runErrMsg (extractErrMsg ("boom".data))),
       Event.finished] ∧
    Event.error (runErrMsg (extractErrMsg ("boom".data))) ∈
      runEvents H0 fileBothFail filePlain (some 0) := by
  constructor
  · rfl
  · decide

/-- Witness for the amended claim C3 at a concrete cancelled run: the
run log splits at a `False` poll, everything after it is the terminal
`finished`, and no result is emitted. -/
theorem cancel_quiescence_amended_witness :
    Worker.run H0 filePlain filePlain (some 0) =
      [Item.ev (Event.status (extractingMsg ("b.pdf".data))), Item.poll false,
        Item.ev Event.finished] ∧
    (∀ e, Item.ev e ∈ [Item.ev Event.finished] → e = Event.finished) ∧
    (∀ r, Event.result r ∉ runEvents H0 filePlain filePlain (some 0)) :=
  ⟨by rfl,
    fun e he =>
      (cancel_quiescence_amended H0 filePlain filePlain (some 0)).1
        [Item.ev (Event.status (extractingMsg ("b.pdf".data)))]
        [Item.ev Event.finished] e (by rfl) he,
    (cancel_quiescence_amended H0 filePlain filePlain (some 0)).2.1⟩

/-- Is this notification an `error`? -/
def isErrEvent : Event → Bool
  | Event.error _ => true
  | _ => false

/-- Is this notification the terminal `finished`? -/
def isFinEvent : Event → Bool
  | Event.finished => true
  | _ => false

theorem countP_progress_zero (p : Event → Bool)
    (hp : ∀ v, p (Event.progress v) = false) (evs : List Event)
    (hall : ∀ e ∈ evs, ∃ v, e = Event.progress v) : evs.countP p = 0 := by
  induction evs with
  | nil => rfl
  | cons e t ih =>
    simp at hall
    obtain ⟨⟨v, hv⟩, ht⟩ := hall
    subst hv
    simp [List.countP_cons, hp, ih ht]

/-- Claim C6: `extract_text` fails with the wrapped extraction error
only when both strategies fail for the same input (a primary failure
alone is swallowed and the fallback's output is returned); and when
extraction of an input fails during the run — whether it is the first
document's extraction or the second's — the task emits the error
notification exactly once with a non-empty message, never emits a
result, and emits `finished` exactly once. -/
theorem extraction_error_both_strategies (H : HintOracle) (f1 f2 : PdfFile)
    (c : Option Nat) :
    (∀ m, (Worker.extract_text c f1 0).1 = Except.error m →
        (∃ e, f1.primary = Except.error e) ∧
        ∃ e2, m = extractErrMsg e2 ∧
          (f1.fallback = Except.error e2 ∨
            ∃ pre rest, f1.fallback = Except.ok (pre ++ Except.error e2 :: rest))) ∧
    (∀ e pages, f1.primary = Except.error e → f1.fallback = Except.ok pages →
        (∀ p ∈ pages, ∃ t, p = Except.ok t) →
        ∃ t, (Worker.extract_text c f1 0).1 = Except.ok t) ∧
    (∀ m, (Worker.extract_text c f1 0).1 = Except.error m →
        (runEvents H f1 f2 c).countP isErrEvent = 1 ∧
        (∀ m2, Event.error m2 ∈ runEvents H f1 f2 c → m2 ≠ []) ∧
        (∀ r, Event.result r ∉ runEvents H f1 f2 c) ∧
        (runEvents H f1 f2 c).countP isFinEvent = 1) ∧
    (∀ t1 m, (Worker.extract_text c f1 0).1 = Except.ok t1 →
        pollVal c (Worker.extract_text c f1 0).2.2 = true →
        (Worker.extract_text c f2
            ((Worker.extract_text c f1 0).2.2 + 1)).1 = Except.error m →
        (runEvents H f1 f2 c).countP isErrEvent = 1 ∧
        (∀ m2, Event.error m2 ∈ runEvents H f1 f2 c → m2 ≠ []) ∧
        (∀ r, Event.result r ∉ runEvents H f1 f2 c) ∧
        (runEvents H f1 f2 c).countP isFinEvent = 1) := by
  refine ⟨fun m hm => ext_error_shape c f1 0 m hm, ?_, ?_, ?_⟩
  · intro e pages hpr hfb hall
    unfold Worker.extract_text
    rw [hpr, hfb]
    exact fb_ok_of_all_ok c pages.length pages 0 0 [] hall
  · intro m hm
    have htr := body_err_trace H f1 f2 c m hm
    have hmid := eventsOf_ext_progress c f1 0
    refine ⟨?_, ?_, ?_, ?_⟩
    · rw [htr]
      simp [List.countP_cons, List.countP_append, isErrEvent,
        countP_progress_zero isErrEvent (fun _ => rfl) _ hmid]
    · intro m2 hmem
      rw [htr] at hmem
      simp at hmem
      rcases hmem with h | h
      · obtain ⟨v, hv⟩ := hmid (Event.error m2) h
        cases hv
      · subst h
        simp [runErrMsg]
    · intro r hmem
      rw [htr] at hmem
      simp at hmem
      obtain ⟨v, hv⟩ := hmid (Event.result r) hmem
      cases hv
    · rw [htr]
      simp [List.countP_cons, List.countP_append, isFinEvent,
        countP_progress_zero isFinEvent (fun _ => rfl) _ hmid]
  · intro t1 m h1 hpoll h2
    have htr := body_err2_trace H f1 f2 c t1 m h1 hpoll h2
    have hmid1 := eventsOf_ext_progress c f1 0
    have hmid2 :=
      eventsOf_ext_progress c f2 ((Worker.extract_text c f1 0).2.2 + 1)
    refine ⟨?_, ?_, ?_, ?_⟩
    · rw [htr]
      simp [List.countP_cons, List.countP_append, isErrEvent,
        countP_progress_zero isErrEvent (fun _ => rfl) _ hmid1,
        countP_progress_zero isErrEvent (fun _ => rfl) _ hmid2]
    · intro m2 hmem
      rw [htr] at hmem
      simp at hmem
      rcases hmem with h | h | h
      · obtain ⟨v, hv⟩ := hmid1 (Event.error m2) h
        cases hv
      · obtain ⟨v, hv⟩ := hmid2 (Event.error m2) h
        cases hv
      · subst h
        simp [runErrMsg]
    · intro r hmem
      rw [htr] at hmem
      simp at hmem
      rcases hmem with h | h
      · obtain ⟨v, hv⟩ := hmid1 (Event.result r) h
        cases hv
      · obtain ⟨v, hv⟩ := hmid2 (Event.result r) h
        cases hv
    · rw [htr]
      simp [List.countP_cons, List.countP_append, isFinEvent,
        countP_progress_zero isFinEvent (fun _ => rfl) _ hmid1,
        countP_progress_zero isFinEvent (fun _ => rfl) _ hmid2]

/-- Witness for claim C6 at concrete inputs: a first document whose
two strategies both fail (one error, no result, one `finished`), and
a run whose first extraction succeeds while the second document's two
strategies both fail (again one error, no result, one `finished`). -/
theorem extraction_error_both_strategies_witness :
    (Worker.extract_text none fileBothFail 0).1 =
        Except.error (extractErrMsg ("boom".data)) ∧
      (runEvents H0 fileBothFail filePlain none).countP isErrEvent = 1 ∧
      (∀ r, Event.result r ∉ runEvents H0 fileBothFail filePlain none) ∧
      (runEvents H0 fileBothFail filePlain none).countP isFinEvent = 1 ∧
      (runEvents H0 filePlain fileBothFail none).countP isErrEvent = 1 ∧
      (∀ r, Event.result r ∉ runEvents H0 filePlain fileBothFail none) ∧
      (runEvents H0 filePlain fileBothFail none).countP isFinEvent = 1 :=
  ⟨rfl,
    ((extraction_error_both_strategies H0 fileBothFail filePlain none).2.2.1 _ rfl).1,
    ((extraction_error_both_strategies H0 fileBothFail filePlain none).2.2.1 _ rfl).2.2.1,
    ((extraction_error_both_strategies H0 fileBothFail filePlain none).2.2.1 _ rfl).2.2.2,
    ((extraction_error_both_strategies H0 filePlain fileBothFail none).2.2.2
      ("x".data) (extractErrMsg ("boom".data)) rfl rfl rfl).1,
    ((extraction_error_both_strategies H0 filePlain fileBothFail none).2.2.2
      ("x".data) (extractErrMsg ("boom".data)) rfl rfl rfl).2.2.1,
    ((extraction_error_both_strategies H0 filePlain fileBothFail none).2.2.2
      ("x".data) (extractErrMsg ("boom".data)) rfl rfl rfl).2.2.2⟩

/-- A document whose primary strategy fails and whose single fallback
page raises. -/
def filePageRaise : PdfFile :=
  PdfFile.mk ("c.pdf".data) (Except.error ("p".data))
    (Except.ok [Except.error ("boom".data)])

/-- A document whose primary strategy fails and whose fallback pages
yield `None` and `"x"`. -/
def filePages : PdfFile :=
  PdfFile.mk ("d.pdf".data) (Except.error ("p".data))
    (Except.ok [Except.ok none, Except.ok (some ("x".data))])

/-- Claim C1, counterexample: a document whose fallback has a single
page whose extraction raises.  The failure of that individual page is
not recovered: the whole extraction aborts with the wrapped
extraction error, contradicting the claim that a page failure never
surfaces and never causes ExtractionError. -/
theorem page_failure_aborts_cex :
    (Worker.extract_text none filePageRaise 0).1 =
        Except.error (extractErrMsg ("boom".data)) ∧
      filePageRaise.fallback = Except.ok [Except.error ("boom".data)] :=
  ⟨rfl, rfl⟩

/-- Claim C1 (amended): during fallback extraction, a page whose
extraction call returns no text (Python's `None`) is recovered locally
by substituting empty text — the loop continues, no failure surfaces,
and an uncancelled fallback returns the concatenation of the per-page
texts with `None` read as `""`.  A page whose extraction call raises,
however, is not recovered: the exception propagates out of the loop
and the whole extraction aborts with the wrapped ExtractionError. -/
theorem fallback_page_recovery_amended (f : PdfFile) (c : Option Nat) (e : Str)
    (pages : List (Except Str (Option Str)))
    (hpr : f.primary = Except.error e) (hfb : f.fallback = Except.ok pages) :
    ((∀ p ∈ pages, ∃ t, p = Except.ok t) →
        (∃ t, (Worker.extract_text c f 0).1 = Except.ok t) ∧
          (Worker.extract_text none f 0).1 = Except.ok (pagesText pages)) ∧
      (∀ pre m rest, pages = pre ++ Except.error m :: rest →
        (∀ q ∈ pre, ∃ t, q = Except.ok t) →
        (Worker.extract_text none f 0).1 = Except.error (extractErrMsg m)) := by
  constructor
  · intro hall
    constructor
    · unfold Worker.extract_text
      rw [hpr, hfb]
      exact fb_ok_of_all_ok c pages.length pages 0 0 [] hall
    · unfold Worker.extract_text
      rw [hpr, hfb]
      have hv := fb_none_value pages.length pages 0 0 [] hall
      simpa using hv
  · intro pre m rest hps hpre
    unfold Worker.extract_text
    rw [hpr, hfb, hps]
    exact fb_error_first (pre ++ Except.error m :: rest).length pre rest m 0 0 [] hpre

/-- Witness for the amended claim C1: a fallback whose pages yield
`None` then `"x"` extracts successfully to the concatenated text,
while a fallback whose single page raises aborts with the wrapped
error. -/
theorem fallback_page_recovery_amended_witness :
    (Worker.extract_text none filePages 0).1 =
        Except.ok (pagesText [Except.ok none, Except.ok (some ("x".data))]) ∧
      (Worker.extract_text none filePageRaise 0).1 =
        Except.error (extractErrMsg ("boom".data)) :=
  ⟨((fallback_page_recovery_amended filePages none ("p".data)
        [Except.ok none, Except.ok (some ("x".data))] rfl rfl).1
      (by
        intro p hp
        simp at hp
        rcases hp with h | h
        · exact ⟨none, h⟩
        · exact ⟨some ("x".data), h⟩)).2,
    (fallback_page_recovery_amended filePageRaise none ("p".data)
        [Except.error ("boom".data)] rfl rfl).2 [] ("boom".data) [] rfl (by simp)⟩

/-- A document whose primary strategy fails and whose fallback has no
pages at all. -/
def fileNoPages : PdfFile :=
  PdfFile.mk ("e.pdf".data) (Except.error ("p".data)) (Except.ok [])

/-- Claim C10: the fallback's progress expression divides by the page
count only inside the per-page loop, which is unreachable for a
zero-page document: such a document yields empty extracted text, no
emitted notifications, no polls, and no error from the fallback. -/
theorem fallback_zero_pages_safe (f : PdfFile) (c : Option Nat) (p : Nat)
    (e : Str) (hpr : f.primary = Except.error e)
    (hfb : f.fallback = Except.ok []) :
    Worker.extract_text c f p = (Except.ok [], [], p) := by
  unfold Worker.extract_text
  rw [hpr, hfb]
  rfl

/-- Witness for claim C10 at a concrete zero-page document. -/
theorem fallback_zero_pages_safe_witness :
    fileNoPages.primary = Except.error ("p".data) ∧
      fileNoPages.fallback = Except.ok [] ∧
      Worker.extract_text none fileNoPages 7 = (Except.ok [], [], 7) :=
  ⟨rfl, rfl, fallback_zero_pages_safe fileNoPages none 7 ("p".data) rfl rfl⟩

/-- Claim C9: during fallback extraction of a document, the progress
value emitted before processing 0-based page `i` is exactly
`10 + (i * 40) / n` where `n` is the page count — the emitted progress
values are an initial segment of that sequence, one per processed
page — and every fallback progress value lies in `[10, 49]`.  The
statement holds for any starting poll count and cancellation point,
hence for the second document's fallback as well as the first's. -/
theorem fallback_progress_values (f : PdfFile) (c : Option Nat) (p : Nat)
    (e : Str) (pages : List (Except Str (Option Str)))
    (hpr : f.primary = Except.error e) (hfb : f.fallback = Except.ok pages) :
    ∃ m, m ≤ pages.length ∧
      progressValues (Worker.extract_text c f p).2.1 =
        (List.range m).map (fun j => 10 + (j * 40) / pages.length) ∧
      ∀ v ∈ progressValues (Worker.extract_text c f p).2.1,
        10 ≤ v ∧ v ≤ 49 := by
  have hxt : (Worker.extract_text c f p).2.1 =
      (fbLoop c pages.length pages 0 p []).2.1 := by
    unfold Worker.extract_text
    rw [hpr, hfb]
  obtain ⟨m, hm, hv⟩ := fb_progress_range c pages.length pages 0 p []
  have hv2 : progressValues (Worker.extract_text c f p).2.1 =
      (List.range m).map (fun j => 10 + (j * 40) / pages.length) := by
    rw [hxt, hv]
    apply List.map_congr_left
    intro j _
    simp
  refine ⟨m, hm, hv2, ?_⟩
  intro v hvm
  rw [hv2] at hvm
  simp [List.mem_map, List.mem_range] at hvm
  obtain ⟨j, hj, hjv⟩ := hvm
  have hjn : j < pages.length := Nat.lt_of_lt_of_le hj hm
  have hn : 0 < pages.length := Nat.pos_of_ne_zero (by omega)
  have h40 : j * 40 / pages.length < 40 :=
    (Nat.div_lt_iff_lt_mul hn).mpr (by omega)
  constructor
  · rw [← hjv]
    exact Nat.le_add_right 10 _
  · rw [← hjv]
    exact Nat.add_le_add_left (Nat.lt_succ_iff.mp h40) 10

/-- Witness for claim C9 at a concrete two-page fallback: the emitted
progress values are `10 + 0 * 40 / 2 = 10` and `10 + 1 * 40 / 2 = 30`,
both within `[10, 49]`. -/
theorem fallback_progress_values_witness :
    progressValues (Worker.extract_text none filePages 0).2.1 = [10, 30] ∧
      ∃ m, m ≤ ([Except.ok none, Except.ok (some ("x".data))] :
            List (Except Str (Option Str))).length ∧
        progressValues (Worker.extract_text none filePages 0).2.1 =
          (List.range m).map (fun j =>
            10 + (j * 40) / ([Except.ok none, Except.ok (some ("x".data))] :
              List (Except Str (Option Str))).length) ∧
        ∀ v ∈ progressValues (Worker.extract_text none filePages 0).2.1,
          10 ≤ v ∧ v ≤ 49 :=
  ⟨rfl, fallback_progress_values filePages none 0 ("p".data)
    [Except.ok none, Except.ok (some ("x".data))] rfl rfl⟩

/-- Claim C5: for every pair of input line sequences `a` and `b`,
taking the diff entries of `diff(a, b)` in emitted order and keeping
only the Unchanged and Removed payload lines reconstructs exactly `a`,
and keeping only the Unchanged and Added payload lines reconstructs
exactly `b` (for any choice of optional intraline hints). -/
theorem diff_restores_both_inputs (H : HintOracle) (a b : List Str) :
    ((diffEntries H a b).filter keepsA).map DiffEntry.payload = a ∧
      ((diffEntries H a b).filter keepsB).map DiffEntry.payload = b :=
  ⟨diff_restore_a H a b, diff_restore_b H a b⟩

/-- Claim C8: for every pair of input line sequences `a` and `b`, the
added count of `diff(a, b)` equals the removed count of `diff(b, a)`
and the removed count of `diff(a, b)` equals the added count of
`diff(b, a)`, for any choices of optional intraline hints on the two
sides. -/
theorem diff_count_swap_symmetry (H H2 : HintOracle) (a b : List Str) :
    kcount DiffKind.added (diffEntries H a b) =
        kcount DiffKind.removed (diffEntries H2 b a) ∧
      kcount DiffKind.removed (diffEntries H a b) =
        kcount DiffKind.added (diffEntries H2 b a) := by
  have h1 := added_count_add_unchanged H a b
  have h2 := removed_count_add_unchanged H2 b a
  have h3 := removed_count_add_unchanged H a b
  have h4 := added_count_add_unchanged H2 b a
  have h5 := unchanged_count_eq_lcs H a b
  have h6 := unchanged_count_eq_lcs H2 b a
  have h7 := lcsLen_symm a b
  omega

/-- Claim C4: for every pair of input line sequences, the added and
removed counters the formatting loop reports in the trailing summary
equal the number of diff entries of kind Added and of kind Removed
respectively, and IntralineHint entries (the `'? '` marker lines) are
excluded both from the rendered report lines and from the counters. -/
theorem summary_counts_match_entry_kinds (H : HintOracle) (a b : List Str) :
    ∃ pitems pn,
      formatLoop none (differCompare H a b) 0 [] 0 0 =
        (some (((diffEntries H a b).filter notHint).map spanOfEntry,
          kcount DiffKind.added (diffEntries H a b),
          kcount DiffKind.removed (diffEntries H a b)), pitems, pn) := by
  refine ⟨List.replicate (differCompare H a b).length (Item.poll true),
    0 + (differCompare H a b).length, ?_⟩
  rw [fmt_none_complete]
  simp [differCompare, renderedBody_entries, addedPref_entries, removedPref_entries]

theorem ext_primary_ok (c : Option Nat) (f : PdfFile) (p : Nat) (t : Str)
    (h : f.primary = Except.ok t) :
    Worker.extract_text c f p = (Except.ok t, [], p) := by
  unfold Worker.extract_text
  rw [h]

theorem eventsOf_replicate_poll (n : Nat) (b : Bool) :
    eventsOf (List.replicate n (Item.poll b)) = [] := by
  induction n with
  | zero => rfl
  | succ k ih => simp [List.replicate_succ, eventsOf, itemEvent, ih]

/-- The rendered report payload `"<br>".join(result)` of a completed
run on extracted texts `t1` and `t2` (src/main.py:54-70). -/
def reportOf (H : HintOracle) (t1 t2 : Str) : Str :=
  List.intercalate brSep
    (renderedBody (differCompare H (splitlines t1) (splitlines t2)) ++
      [summaryLine (addedPref (differCompare H (splitlines t1) (splitlines t2)))
        (removedPref (differCompare H (splitlines t1) (splitlines t2)))])

/-- Claim C2 (amended): on a successful, uncancelled run in which both
extractions succeed via the primary strategy, the notifications are
emitted in exactly this order: status before the first extraction,
progress 30, status before the second extraction, progress 60, status
before comparison, progress 80, status before formatting, then the
result payload, then progress 100, then the final status summarizing
the two input line counts — all strictly before the single terminal
`finished`.  (The code emits the result payload before progress 100
and the final status, not after them.) -/
theorem run_trace_order_amended (H : HintOracle) (f1 f2 : PdfFile)
    (t1 t2 : Str) (h1 : f1.primary = Except.ok t1)
    (h2 : f2.primary = Except.ok t2) :
    runEvents H f1 f2 none =
      [Event.status (extractingMsg f1.name),
       Event.progress 30,
       Event.status (extractingMsg f2.name),
       Event.progress 60,
       Event.status compareMsg,
       Event.progress 80,
       Event.status formatMsg,
       Event.result (reportOf H t1 t2),
       Event.progress 100,
       Event.status (doneMsg (splitlines t1).length (splitlines t2).length),
       Event.finished] := by
  unfold runEvents Worker.run Worker.runBody Worker.runCompare
  simp [ext_primary_ok none f1 0 t1 h1, ext_primary_ok none f2 (0 + 1) t2 h2,
    fmt_none_complete, pollVal, eventsOf, itemEvent, List.filterMap_append,
    eventsOf_replicate_poll, reportOf]

/-- A second document whose primary extraction succeeds with text
`"y"`. -/
def filePlain2 : PdfFile :=
  PdfFile.mk ("f.pdf".data) (Except.ok ("y".data)) (Except.ok [])

set_option maxHeartbeats 2000000 in
/-- Claim C2, counterexample: at a concrete successful (uncancelled,
error-free) run, the emitted order places the result payload
immediately after the formatting status and BEFORE progress 100 and
the final status; the order the claim states — progress 100, the final
status, then the result payload — is not the emitted one. -/
theorem run_trace_order_cex :
    runEvents H0 filePlain filePlain2 none =
      [Event.status (extractingMsg ("b.pdf".data)),
       Event.progress 30,
       Event.status (extractingMsg ("f.pdf".data)),
       Event.progress 60,
       Event.status compareMsg,
       Event.progress 80,
       Event.status formatMsg,
       Event.result (reportOf H0 ("x".data) ("y".data)),
       Event.progress 100,
       Event.status (doneMsg 1 1),
       Event.finished] ∧
    runEvents H0 filePlain filePlain2 none ≠
      [Event.status (extractingMsg ("b.pdf".data)),
       Event.progress 30,
       Event.status (extractingMsg ("f.pdf".data)),
       Event.progress 60,
       Event.status compareMsg,
       Event.progress 80,
       Event.status formatMsg,
       Event.progress 100,
       Event.status (doneMsg 1 1),
       Event.result (reportOf H0 ("x".data) ("y".data)),
       Event.finished] := by
  have h1 : runEvents H0 filePlain filePlain2 none =
      [Event.status (extractingMsg ("b.pdf".data)),
       Event.progress 30,
       Event.status (extractingMsg ("f.pdf".data)),
       Event.progress 60,
       Event.status compareMsg,
       Event.progress 80,
       Event.status formatMsg,
       Event.result (reportOf H0 ("x".data) ("y".data)),
       Event.progress 100,
       Event.status (doneMsg 1 1),
       Event.finished] := by
    unfold runEvents Worker.run Worker.runBody Worker.runCompare
    simp [ext_primary_ok none filePlain 0 ("x".data) rfl,
      ext_primary_ok none filePlain2 (0 + 1) ("y".data) rfl,
      fmt_none_complete, pollVal, eventsOf, itemEvent, List.filterMap_append,
      eventsOf_replicate_poll, reportOf, splitlines, splitlinesGo, isLineBreak,
      (show filePlain.name = ("b.pdf".data) from rfl),
      (show filePlain2.name = ("f.pdf".data) from rfl)]
  constructor
  · exact h1
  · rw [h1]
    decide

/-- Witness for the amended claim C2 at a concrete successful run via
the primary strategy on both inputs. -/
theorem run_trace_order_amended_witness :
    filePlain.primary = Except.ok ("x".data) ∧
      filePlain2.primary = Except.ok ("y".data) ∧
      runEvents H0 filePlain filePlain2 none =
        [Event.status (extractingMsg filePlain.name),
         Event.progress 30,
         Event.status (extractingMsg filePlain2.name),
         Event.progress 60,
         Event.status compareMsg,
         Event.progress 80,
         Event.status formatMsg,
         Event.result (reportOf H0 ("x".data) ("y".data)),
         Event.progress 100,
         Event.status (doneMsg (splitlines ("x".data)).length
           (splitlines ("y".data)).length),
         Event.finished] :=
  ⟨rfl, rfl,
    run_trace_order_amended H0 filePlain filePlain2 ("x".data) ("y".data) rfl rfl⟩
